import Mathlib

/-!
Shallow embedding of the anagram solver in `src/main.cpp` and verification of
its specification. Strings are modelled as lists of characters (the program
only ever handles NUL-free text obtained from `argv` and `getline`), `std::map`
buckets as key-sorted association lists, and the bucket vector as a list.
-/

/-- A C++ `std::string`, as the list of its characters. -/
abbrev Word := List Char

/-- `std::string::operator<`: strict lexicographic comparison. -/
def lexLt : Word → Word → Bool
  | [], [] => false
  | [], _ :: _ => true
  | _ :: _, [] => false
  | a :: as, b :: bs => if a < b then true else if b < a then false else lexLt as bs

/-- The non-space characters of a word, in order: the effect of the
`erase`/`remove` line in `Solver::sanitize` before sorting. -/
def letters (w : Word) : Word := w.filter (fun c => c != ' ')

/-- `Solver::sanitize`: remove all spaces, then sort ascending. -/
def sanitize (w : Word) : Word := List.insertionSort (· ≤ ·) (letters w)

/-- The `while(*q)` loop of `Solver::queryContains`, scanning the sorted query
`q` and advancing through the sanitized word `w`; returns `true` as soon as the
word cursor reaches the terminator. -/
def scan : Word → Word → Bool
  | _, [] => false
  | w, qc :: qs =>
    let w' := match w with
      | [] => []
      | wc :: ws => if wc = qc then ws else wc :: ws
    if w'.isEmpty then true else scan w' qs

/-- `Solver::queryContains`: an empty raw word is rejected up front; otherwise
the sanitized word is scanned against the solver's sorted query. -/
def queryContains (sortedQuery : Word) (word : Word) : Bool :=
  if word.isEmpty then false else scan (sanitize word) sortedQuery

/-- One `std::map<std::string, int>` of `Solver::scores_`, as a key-sorted
association list. -/
abbrev Bucket := List (Word × Nat)

/-- The `std::vector` of buckets `Solver::scores_`. -/
abbrev Store := List Bucket

/-- Read `scores_[i]` (out-of-range reads, which the program never performs,
default to an empty bucket). -/
def getBucket (st : Store) (i : Nat) : Bucket := st.getD i []

/-- Write `scores_[i]`. -/
def setBucket (st : Store) (i : Nat) (b : Bucket) : Store := st.set i b

/-- `Solver::Solver`: one empty bucket for each length `0 .. maxLength`. -/
def initStore (maxLength : Nat) : Store := List.replicate (maxLength + 1) []

/-- `std::map::operator[]` assignment: insert in key order, overwriting the
value when the key is already present. -/
def bucketInsert : Bucket → Word → Nat → Bucket
  | [], k, v => [(k, v)]
  | (k', v') :: rest, k, v =>
    if lexLt k k' then (k, v) :: (k', v') :: rest
    else if lexLt k' k then (k', v') :: bucketInsert rest k v
    else (k, v) :: rest

/-- One iteration of the `getline` loop in `Solver::seed`: words longer than
the query or not contained in it are skipped, others are stored in the bucket
of their raw length with score `length * length`. -/
def seedOne (maxLength : Nat) (sortedQuery : Word) (st : Store) (word : Word) : Store :=
  if word.length > maxLength then st
  else if !queryContains sortedQuery word then st
  else setBucket st word.length
    (bucketInsert (getBucket st word.length) word (word.length * word.length))

/-- `Solver::seed`: `none` models a candidate source that cannot be opened
(the `if(!f)` test); the `Bool` component is the C++ return value. -/
def seed (sortedQuery : Word) (maxLength : Nat) (st : Store) :
    Option (List Word) → Bool × Store
  | none => (false, st)
  | some words => (true, words.foldl (seedOne maxLength sortedQuery) st)

/-- Combined key formation in `Solver::permute`: the lexicographically smaller
word, a space, then the larger word. -/
def combineKey (a b : Word) : Word :=
  if lexLt a b then a ++ ' ' :: b else b ++ ' ' :: a

/-- Combined score in `Solver::permute`: the sum of the two scores. -/
def combineScore (sa sb : Nat) : Nat := sa + sb

/-- `n` consecutive naturals counting down from `s`. -/
def downFrom : Nat → Nat → List Nat
  | 0, _ => []
  | n + 1, s => s :: downFrom n (s - 1)

/-- `[hi, hi-1, ..., lo]`, empty when `hi < lo`. -/
def downTo (hi lo : Nat) : List Nat := downFrom (hi + 1 - lo) hi

/-- The `scores1Length` values actually processed by the loop of
`Solver::permute`: counting down from `length - minLength` to `minLength`,
stopping at the `break` once `scores2Length > scores1Length`. -/
def permuteLefts (L m : Nat) : List Nat :=
  (downTo (L - m) m).takeWhile (fun l => decide (L - l ≤ l))

/-- The `(scores1Length, scores2Length)` split pairs processed by
`Solver::permute`, in loop order. -/
def permuteSplits (L m : Nat) : List (Nat × Nat) :=
  (permuteLefts L m).map (fun l => (l, L - l))

/-- The inner `scores2It` loop of `Solver::permute` for a fixed `scores1`
entry, accumulating into the destination bucket. -/
def crossOne (sq : Word) (kv1 : Word × Nat) (d : Bucket) (b2 : Bucket) : Bucket :=
  b2.foldl (fun d kv2 =>
    let key := combineKey kv1.1 kv2.1
    if queryContains sq key then bucketInsert d key (combineScore kv1.2 kv2.2) else d) d

/-- The double loop of `Solver::permute` for one split. -/
def crossInsert (sq : Word) (b1 b2 dest : Bucket) : Bucket :=
  b1.foldl (fun d kv1 => crossOne sq kv1 d b2) dest

/-- One split iteration of `Solver::permute`, including the empty-bucket
`continue`. -/
def permuteStep (sq : Word) (L : Nat) (st : Store) (lr : Nat × Nat) : Store :=
  let b1 := getBucket st lr.1
  let b2 := getBucket st lr.2
  if b1.isEmpty || b2.isEmpty then st
  else setBucket st L (crossInsert sq b1 b2 (getBucket st L))

/-- `Solver::permute` (the store effect; the returned iteration count is a
diagnostic and is not modelled). -/
def permute (sq : Word) (st : Store) (L m : Nat) : Store :=
  (permuteSplits L m).foldl (permuteStep sq L) st

/-- The `minLength` computation at the top of `Solver::solve`. -/
def solveMinLength (queryLength : Nat) (forceAll : Bool) : Nat :=
  let m0 := queryLength / 2 - 2
  let m1 := if m0 < 1 then 1 else m0
  if forceAll then 1 else m1

/-- The permute driving loop of `Solver::solve`
(`for i = 0; i <= sortedQuery_.size(); ++i`). -/
def solveStore (sq : Word) (st : Store) (forceAll : Bool) : Store :=
  (List.range (sq.length + 1)).foldl
    (fun s i => permute sq s i (solveMinLength sq.length forceAll)) st

/-- The comparator `sortScores`: does entry `a` sort strictly before `b`
(higher score first, ties alphabetically)? -/
def sortScores (a b : Word × Nat) : Bool :=
  if b.2 = a.2 then lexLt a.1 b.1 else decide (b.2 < a.2)

/-- The non-strict companion of `sortScores`: `a` need not come after `b`.
`std::sort` with the strict comparator produces a list sorted by this
relation. -/
def rankLe (a b : Word × Nat) : Prop := sortScores b a = false

instance : DecidableRel rankLe := fun a b =>
  inferInstanceAs (Decidable (sortScores b a = false))

/-- Answer extraction and sorting at the end of `Solver::solve`: the
full-length bucket filtered by `queryContains`, sorted with `sortScores`. -/
def rank (sq : Word) (st : Store) : List (Word × Nat) :=
  List.insertionSort rankLe
    ((getBucket st sq.length).filter (fun kv => queryContains sq kv.1))

/-- `Solver::solve`: run all the permute passes, then rank. -/
def solve (sq : Word) (st : Store) (forceAll : Bool) : List (Word × Nat) :=
  rank sq (solveStore sq st forceAll)

/-- `main`: reject a raw-empty query with a usage message (`none`); otherwise
build the solver, seed it (the `seed` return value is ignored), and solve. -/
def program (query : Word) (src : Option (List Word)) (forceAll : Bool) :
    Option (List (Word × Nat)) :=
  if query.length < 1 then none
  else
    let sq := sanitize query
    some (solve sq (seed sq sq.length (initStore sq.length) src).2 forceAll)

/-- A sequence of `permute` calls applied to a store; each pair is a
`(length, minLength)` argument pair. -/
def applyOps (sq : Word) (st : Store) (ops : List (Nat × Nat)) : Store :=
  ops.foldl (fun s p => permute sq s p.1 p.2) st

/-- The store obtained by constructing the solver for `query`, seeding it from
the candidate words `ws`, and applying an arbitrary sequence of `permute`
calls. -/
def builtStore (query : Word) (ws : List Word) (ops : List (Nat × Nat)) : Store :=
  applyOps (sanitize query)
    ((seed (sanitize query) (sanitize query).length
      (initStore (sanitize query).length) (some ws)).2) ops

/-- Bucket content invariant: every stored key has letters-only length equal
to its bucket index, has at least one letter, and its letter multiset is
contained in the query's. -/
def StoreInv (sq : Word) (st : Store) : Prop :=
  ∀ L kv, kv ∈ getBucket st L →
    (letters kv.1).length = L ∧ letters kv.1 ≠ [] ∧ List.Subperm (sanitize kv.1) sq

/-- Every bucket is strictly sorted by key (the `std::map` iteration order). -/
def BucketsSorted (st : Store) : Prop :=
  ∀ L, (getBucket st L).Pairwise (fun x y => lexLt x.1 y.1 = true)

/-- Strict output order of the ranking: score strictly descending, equal
scores by strictly ascending text. -/
def strictRank (a b : Word × Nat) : Prop :=
  b.2 < a.2 ∨ (a.2 = b.2 ∧ lexLt a.1 b.1 = true)

/-- The bucket indices written during seeding from `ws`. -/
def seedTouched (maxLength : Nat) (sq : Word) (ws : List Word) : List Nat :=
  (ws.filter (fun w => decide (w.length ≤ maxLength) && queryContains sq w)).map List.length

/-- The bucket indices read or written by `Solver::permute`. -/
def permuteTouched (L m : Nat) : List Nat :=
  (permuteSplits L m).flatMap (fun p => [p.1, p.2, L])

/-- The bucket indices read or written by the driving loop of `Solver::solve`
and by the final ranking pass. -/
def solveTouched (qL m : Nat) : List Nat :=
  ((List.range (qL + 1)).flatMap (fun i => permuteTouched i m)) ++ [qL]

/-- The `(key, score)` pairs produced by one split of `Solver::permute`, in
iteration order, computed from the two source buckets only. -/
def stepInserts (sq : Word) (st : Store) (lr : Nat × Nat) : List (Word × Nat) :=
  let b1 := getBucket st lr.1
  let b2 := getBucket st lr.2
  if b1.isEmpty || b2.isEmpty then []
  else b1.flatMap (fun kv1 => b2.filterMap (fun kv2 =>
    let key := combineKey kv1.1 kv2.1
    if queryContains sq key then some (key, combineScore kv1.2 kv2.2) else none))

/-- All `(key, score)` pairs a `permute` call inserts into its destination
bucket, in write order. -/
def permuteInserts (sq : Word) (st : Store) (L m : Nat) : List (Word × Nat) :=
  (permuteSplits L m).flatMap (stepInserts sq st)

/-- Insert a list of pairs into a bucket in order. -/
def insertList (d : Bucket) (ps : List (Word × Nat)) : Bucket :=
  ps.foldl (fun d p => bucketInsert d p.1 p.2) d

/-! ### Basic facts about `lexLt` -/

theorem lexLt_irrefl : ∀ a : Word, lexLt a a = false
  | [] => rfl
  | c :: cs => by simp [lexLt, lexLt_irrefl cs]

theorem lexLt_asymm : ∀ a b : Word, lexLt a b = true → lexLt b a = false
  | [], [] => by simp [lexLt]
  | [], b :: bs => by intro _; simp [lexLt]
  | a :: as, [] => by simp [lexLt]
  | a :: as, b :: bs => by
    simp only [lexLt]
    rcases lt_trichotomy a b with h | h | h
    · simp [h, asymm h]
    · subst h
      simpa [lt_irrefl] using lexLt_asymm as bs
    · simp [h, asymm h]

theorem lexLt_eq_of_not : ∀ a b : Word, lexLt a b = false → lexLt b a = false → a = b
  | [], [] => by simp
  | [], b :: bs => by simp [lexLt]
  | a :: as, [] => by simp [lexLt]
  | a :: as, b :: bs => by
    simp only [lexLt]
    rcases lt_trichotomy a b with h | h | h
    · simp [h]
    · subst h
      simp only [lt_irrefl, if_false, List.cons.injEq, true_and]
      exact fun h1 h2 => lexLt_eq_of_not as bs h1 h2
    · simp [h, asymm h]

theorem lexLt_trans : ∀ a b c : Word, lexLt a b = true → lexLt b c = true → lexLt a c = true
  | [], b, [] => by cases b <;> simp [lexLt]
  | [], b, c :: cs => by intro _ _; simp [lexLt]
  | a :: as, [], c => by simp [lexLt]
  | a :: as, b :: bs, [] => by simp [lexLt]
  | a :: as, b :: bs, c :: cs => by
    simp only [lexLt]
    rcases lt_trichotomy a b with hab | hab | hab <;>
      rcases lt_trichotomy b c with hbc | hbc | hbc
    · simp [hab, hbc, lt_trans hab hbc]
    · subst hbc; simp [hab]
    · simp [hbc, asymm hbc]
    · subst hab; simp [hbc]
    · subst hab; subst hbc
      simpa [lt_irrefl] using lexLt_trans as bs cs
    · subst hab; simp [hbc, asymm hbc]
    · simp [hab, asymm hab]
    · subst hbc; simp [hab, asymm hab]
    · simp [hab, asymm hab]

/-! ### The containment scan -/

theorem scan_nil_iff : ∀ q : Word, (scan [] q = true ↔ q ≠ [])
  | [] => by simp [scan]
  | qc :: qs => by simp [scan]

theorem scan_iff_sublist : ∀ (q w : Word), w ≠ [] → (scan w q = true ↔ w.Sublist q)
  | [], w => fun h => by
    simp [scan, List.sublist_nil, h]
  | qc :: qs, [] => fun h => absurd rfl h
  | qc :: qs, wc :: ws => fun _ => by
    by_cases hc : wc = qc
    · subst hc
      match ws with
      | [] => simp [scan, List.cons_sublist_cons]
      | x :: xs =>
        rw [show scan (wc :: x :: xs) (wc :: qs) = scan (x :: xs) qs by simp [scan]]
        rw [scan_iff_sublist qs (x :: xs) (by simp)]
        constructor
        · exact fun h => h.cons₂ wc
        · intro h
          cases h with
          | cons _ h' => exact ((List.sublist_cons_self wc (x :: xs)).trans h')
          | cons₂ _ h' => exact h'
    · rw [show scan (wc :: ws) (qc :: qs) = scan (wc :: ws) qs by simp [scan, hc]]
      rw [scan_iff_sublist qs (wc :: ws) (by simp)]
      constructor
      · exact fun h => h.cons qc
      · intro h
        cases h with
        | cons _ h' => exact h'
        | cons₂ _ h' => exact absurd rfl hc

/-! ### Sanitize and letters -/

theorem letters_append (a b : Word) : letters (a ++ b) = letters a ++ letters b :=
  List.filter_append _ _

theorem letters_space_cons (b : Word) : letters (' ' :: b) = letters b := by
  simp [letters]

theorem letters_eq_self {w : Word} (h : ' ' ∉ w) : letters w = w :=
  List.filter_eq_self.2 fun c hc => by
    simp only [bne_iff_ne, ne_eq]
    intro e; subst e; exact h hc

theorem sanitize_perm (w : Word) : List.Perm (sanitize w) (letters w) :=
  List.perm_insertionSort _ _

theorem sanitize_sorted (w : Word) : List.Sorted (· ≤ ·) (sanitize w) :=
  List.sorted_insertionSort _ _

theorem sanitize_length (w : Word) : (sanitize w).length = (letters w).length :=
  (sanitize_perm w).length_eq

theorem sanitize_eq_nil_iff (w : Word) : sanitize w = [] ↔ letters w = [] := by
  constructor
  · intro h
    have hp := sanitize_perm w
    rw [h] at hp
    exact hp.nil_eq.symm
  · intro h
    unfold sanitize
    rw [h]
    rfl

theorem sanitize_nil : sanitize [] = [] := rfl

theorem queryContains_iff_sublist (sq w : Word) (h : sanitize w ≠ []) :
    queryContains sq w = true ↔ (sanitize w).Sublist sq := by
  have hw : w ≠ [] := by
    intro e
    exact h (by rw [e, sanitize_nil])
  simp only [queryContains, List.isEmpty_iff, hw, if_false]
  exact scan_iff_sublist sq (sanitize w) h

theorem queryContains_ne_nil {sq w : Word} (h : queryContains sq w = true) : w ≠ [] := by
  intro e
  subst e
  simp [queryContains] at h

theorem sublist_iff_subperm_of_sorted {l1 l2 : Word} (h1 : List.Sorted (· ≤ ·) l1)
    (h2 : List.Sorted (· ≤ ·) l2) : l1.Sublist l2 ↔ List.Subperm l1 l2 :=
  ⟨List.Sublist.subperm, fun h => List.sublist_of_subperm_of_sorted h h1 h2⟩

/-! ### Bucket insertion -/

theorem mem_bucketInsert : ∀ (b : Bucket) (k : Word) (v : Nat) (kv : Word × Nat),
    kv ∈ bucketInsert b k v → kv ∈ b ∨ kv = (k, v)
  | [], k, v, kv => by
    intro h
    simp [bucketInsert] at h
    exact Or.inr (by simp [h])
  | (k', v') :: rest, k, v, kv => by
    intro h
    unfold bucketInsert at h
    by_cases h1 : lexLt k k' = true
    · rw [if_pos h1] at h
      rcases List.mem_cons.1 h with e | h2
      · exact Or.inr e
      · exact Or.inl h2
    · rw [if_neg h1] at h
      by_cases h2 : lexLt k' k = true
      · rw [if_pos h2] at h
        rcases List.mem_cons.1 h with e | h3
        · exact Or.inl (List.mem_cons.2 (Or.inl e))
        · rcases mem_bucketInsert rest k v kv h3 with h4 | h4
          · exact Or.inl (List.mem_cons.2 (Or.inr h4))
          · exact Or.inr h4
      · rw [if_neg h2] at h
        rcases List.mem_cons.1 h with e | h3
        · exact Or.inr e
        · exact Or.inl (List.mem_cons.2 (Or.inr h3))

theorem pairwise_bucketInsert : ∀ (b : Bucket) (k : Word) (v : Nat),
    b.Pairwise (fun x y => lexLt x.1 y.1 = true) →
    (bucketInsert b k v).Pairwise (fun x y => lexLt x.1 y.1 = true)
  | [], k, v, _ => by simp [bucketInsert]
  | (k', v') :: rest, k, v, hp => by
    rcases List.pairwise_cons.1 hp with ⟨hhead, htail⟩
    unfold bucketInsert
    by_cases h1 : lexLt k k' = true
    · rw [if_pos h1]
      refine List.pairwise_cons.2 ⟨?_, hp⟩
      intro x hx
      rcases List.mem_cons.1 hx with e | hx2
      · rw [e]
        exact h1
      · exact lexLt_trans _ _ _ h1 (hhead x hx2)
    · rw [if_neg h1]
      by_cases h2 : lexLt k' k = true
      · rw [if_pos h2]
        refine List.pairwise_cons.2 ⟨?_, pairwise_bucketInsert rest k v htail⟩
        intro x hx
        rcases mem_bucketInsert rest k v x hx with h3 | h3
        · exact hhead x h3
        · rw [h3]
          exact h2
      · rw [if_neg h2]
        have ekk : k = k' := lexLt_eq_of_not k k' (by simpa using h1) (by simpa using h2)
        refine List.pairwise_cons.2 ⟨?_, htail⟩
        intro x hx
        rw [ekk]
        exact hhead x hx

/-! ### Store reads and writes -/

theorem length_setBucket (st : Store) (i : Nat) (b : Bucket) :
    (setBucket st i b).length = st.length := List.length_set st i b

theorem getBucket_cons_succ (x : Bucket) (xs : Store) (j : Nat) :
    getBucket (x :: xs) (j + 1) = getBucket xs j := rfl

theorem getBucket_setBucket_ne : ∀ (st : Store) (i j : Nat) (b : Bucket), j ≠ i →
    getBucket (setBucket st i b) j = getBucket st j
  | [], _, _, _, _ => rfl
  | x :: xs, 0, 0, b, h => absurd rfl h
  | x :: xs, 0, j + 1, b, _ => rfl
  | x :: xs, i + 1, 0, b, _ => rfl
  | x :: xs, i + 1, j + 1, b, h =>
    getBucket_setBucket_ne xs i j b (fun e => h (by rw [e]))

theorem getBucket_setBucket_eq : ∀ (st : Store) (i : Nat) (b : Bucket), i < st.length →
    getBucket (setBucket st i b) i = b
  | [], i, b, h => absurd h (by simp)
  | x :: xs, 0, b, _ => rfl
  | x :: xs, i + 1, b, h => getBucket_setBucket_eq xs i b (by simpa using h)

theorem setBucket_oob : ∀ (st : Store) (i : Nat) (b : Bucket), st.length ≤ i →
    setBucket st i b = st
  | [], _, _, _ => rfl
  | x :: xs, 0, b, h => absurd h (by simp)
  | x :: xs, i + 1, b, h => by
    show x :: setBucket xs i b = x :: xs
    rw [setBucket_oob xs i b (by simpa using h)]

theorem setBucket_getBucket_self : ∀ (st : Store) (i : Nat),
    setBucket st i (getBucket st i) = st
  | [], _ => rfl
  | x :: xs, 0 => rfl
  | x :: xs, i + 1 => by
    show x :: setBucket xs i (getBucket xs i) = x :: xs
    rw [setBucket_getBucket_self xs i]

theorem setBucket_setBucket : ∀ (st : Store) (i : Nat) (b b' : Bucket),
    setBucket (setBucket st i b) i b' = setBucket st i b'
  | [], _, _, _ => rfl
  | x :: xs, 0, b, b' => rfl
  | x :: xs, i + 1, b, b' => by
    show x :: setBucket (setBucket xs i b) i b' = x :: setBucket xs i b'
    rw [setBucket_setBucket xs i b b']

theorem getBucket_initStore : ∀ (n i : Nat), getBucket (initStore n) i = [] := by
  have key : ∀ (m i : Nat), getBucket (List.replicate m ([] : Bucket)) i = [] := by
    intro m
    induction m with
    | zero => intro i; cases i <;> rfl
    | succ m ih =>
      intro i
      cases i with
      | zero => rfl
      | succ j => exact ih j
  intro n i
  exact key (n + 1) i

/-! ### The split enumeration -/

theorem mem_downFrom : ∀ (n s x : Nat), n ≤ s + 1 → (x ∈ downFrom n s ↔ s + 1 - n ≤ x ∧ x ≤ s)
  | 0, s, x, h => by
    simp [downFrom]
    omega
  | n + 1, s, x, h => by
    simp only [downFrom, List.mem_cons]
    rw [mem_downFrom n (s - 1) x (by omega)]
    omega

theorem pairwise_downFrom : ∀ (n s : Nat), n ≤ s + 1 →
    (downFrom n s).Pairwise (fun a b => b < a)
  | 0, _, _ => List.Pairwise.nil
  | n + 1, s, h => by
    simp only [downFrom]
    refine List.pairwise_cons.2 ⟨?_, pairwise_downFrom n (s - 1) (by omega)⟩
    intro x hx
    have := (mem_downFrom n (s - 1) x (by omega)).1 hx
    omega

theorem mem_downTo (hi lo x : Nat) : x ∈ downTo hi lo ↔ lo ≤ x ∧ x ≤ hi := by
  unfold downTo
  rw [mem_downFrom (hi + 1 - lo) hi x (by omega)]
  omega

theorem pairwise_downTo (hi lo : Nat) : (downTo hi lo).Pairwise (fun a b => b < a) :=
  pairwise_downFrom _ _ (by omega)

theorem mem_takeWhile_iff_of_mono (p : Nat → Bool)
    (hmono : ∀ a b, b ≤ a → p b = true → p a = true) :
    ∀ (xs : List Nat), xs.Pairwise (fun a b => b < a) →
      ∀ x, (x ∈ xs.takeWhile p ↔ x ∈ xs ∧ p x = true)
  | [], _, x => by simp
  | y :: ys, hp, x => by
    rcases List.pairwise_cons.1 hp with ⟨hhead, htail⟩
    by_cases hy : p y = true
    · rw [List.takeWhile_cons_of_pos hy]
      simp only [List.mem_cons]
      rw [mem_takeWhile_iff_of_mono p hmono ys htail x]
      constructor
      · rintro (e | ⟨h1, h2⟩)
        · exact ⟨Or.inl e, by rw [e]; exact hy⟩
        · exact ⟨Or.inr h1, h2⟩
      · rintro ⟨e | h1, h2⟩
        · exact Or.inl e
        · exact Or.inr ⟨h1, h2⟩
    · rw [List.takeWhile_cons_of_neg hy]
      simp only [List.mem_cons]
      constructor
      · intro h
        exact absurd h (List.not_mem_nil x)
      · rintro ⟨e | h1, h2⟩
        · rw [e] at h2
          exact absurd h2 hy
        · exact absurd (hmono y x (le_of_lt (hhead x h1)) h2) hy

theorem mem_permuteLefts (L m l : Nat) :
    l ∈ permuteLefts L m ↔ m ≤ l ∧ l ≤ L - m ∧ L - l ≤ l := by
  unfold permuteLefts
  rw [mem_takeWhile_iff_of_mono _
    (fun a b hba hb => by
      simp only [decide_eq_true_eq] at *
      omega)
    (downTo (L - m) m) (pairwise_downTo _ _) l]
  rw [mem_downTo]
  simp only [decide_eq_true_eq]
  omega

theorem mem_permuteSplits (L m l r : Nat) :
    (l, r) ∈ permuteSplits L m ↔ l + r = L ∧ m ≤ r ∧ r ≤ l := by
  unfold permuteSplits
  simp only [List.mem_map]
  constructor
  · rintro ⟨l', hl', e⟩
    have h := (mem_permuteLefts L m l').1 hl'
    injection e with e1 e2
    subst e1
    subst e2
    omega
  · rintro ⟨e, h1, h2⟩
    refine ⟨l, (mem_permuteLefts L m l).2 (by omega), ?_⟩
    have hr : L - l = r := by omega
    rw [hr]

theorem permuteSplits_pairwise (L m : Nat) :
    (permuteSplits L m).Pairwise (fun p q => q.1 < p.1) := by
  unfold permuteSplits permuteLefts
  exact ((pairwise_downTo (L - m) m).sublist (List.takeWhile_sublist _)).map _
    (fun a b h => h)

theorem permuteSplits_nil (L m : Nat) (h : L < 2 * m) : permuteSplits L m = [] := by
  unfold permuteSplits permuteLefts downTo
  have e : L - m + 1 - m = 0 := by omega
  rw [e]
  rfl

theorem permuteSplits_head (L m : Nat) (h : 2 * m ≤ L) :
    (permuteSplits L m).head? = some (L - m, m) := by
  unfold permuteSplits permuteLefts downTo
  obtain ⟨n, hn⟩ : ∃ n, L - m + 1 - m = n + 1 := ⟨L - (2 * m), by omega⟩
  rw [hn]
  rw [show downFrom (n + 1) (L - m) = (L - m) :: downFrom n (L - m - 1) from rfl]
  rw [List.takeWhile_cons_of_pos (by simp only [decide_eq_true_eq]; omega)]
  simp only [List.map_cons, List.head?_cons]
  have e : L - (L - m) = m := by omega
  rw [e]

/-! ### Cross-product membership and sortedness -/

theorem mem_crossOne (sq : Word) (kv1 : Word × Nat) : ∀ (b2 d : Bucket) (kv : Word × Nat),
    kv ∈ crossOne sq kv1 d b2 →
    kv ∈ d ∨ ∃ kv2 ∈ b2, queryContains sq (combineKey kv1.1 kv2.1) = true ∧
      kv = (combineKey kv1.1 kv2.1, combineScore kv1.2 kv2.2)
  | [], d, kv, h => Or.inl h
  | kv2 :: rest, d, kv, h => by
    rw [show crossOne sq kv1 d (kv2 :: rest) = crossOne sq kv1
        (if queryContains sq (combineKey kv1.1 kv2.1) then
          bucketInsert d (combineKey kv1.1 kv2.1) (combineScore kv1.2 kv2.2) else d)
        rest from rfl] at h
    rcases mem_crossOne sq kv1 rest _ kv h with h1 | ⟨kv2', hmem, hq, he⟩
    · by_cases hq : queryContains sq (combineKey kv1.1 kv2.1) = true
      · rw [if_pos hq] at h1
        rcases mem_bucketInsert d _ _ kv h1 with h2 | h2
        · exact Or.inl h2
        · exact Or.inr ⟨kv2, List.mem_cons_self _ _, hq, h2⟩
      · rw [if_neg hq] at h1
        exact Or.inl h1
    · exact Or.inr ⟨kv2', List.mem_cons.2 (Or.inr hmem), hq, he⟩

theorem mem_crossInsert (sq : Word) : ∀ (b1 b2 d : Bucket) (kv : Word × Nat),
    kv ∈ crossInsert sq b1 b2 d →
    kv ∈ d ∨ ∃ kv1 ∈ b1, ∃ kv2 ∈ b2, queryContains sq (combineKey kv1.1 kv2.1) = true ∧
      kv = (combineKey kv1.1 kv2.1, combineScore kv1.2 kv2.2)
  | [], _, _, _, h => Or.inl h
  | kv1 :: rest, b2, d, kv, h => by
    rw [show crossInsert sq (kv1 :: rest) b2 d =
        crossInsert sq rest b2 (crossOne sq kv1 d b2) from rfl] at h
    rcases mem_crossInsert sq rest b2 _ kv h with h1 | ⟨kv1', hm1, hrest⟩
    · rcases mem_crossOne sq kv1 b2 d kv h1 with h2 | ⟨kv2, hm2, hq, he⟩
      · exact Or.inl h2
      · exact Or.inr ⟨kv1, List.mem_cons_self _ _, kv2, hm2, hq, he⟩
    · exact Or.inr ⟨kv1', List.mem_cons.2 (Or.inr hm1), hrest⟩

theorem pairwise_crossOne (sq : Word) (kv1 : Word × Nat) : ∀ (b2 d : Bucket),
    d.Pairwise (fun x y => lexLt x.1 y.1 = true) →
    (crossOne sq kv1 d b2).Pairwise (fun x y => lexLt x.1 y.1 = true)
  | [], _, h => h
  | kv2 :: rest, d, h => by
    rw [show crossOne sq kv1 d (kv2 :: rest) = crossOne sq kv1
        (if queryContains sq (combineKey kv1.1 kv2.1) then
          bucketInsert d (combineKey kv1.1 kv2.1) (combineScore kv1.2 kv2.2) else d)
        rest from rfl]
    apply pairwise_crossOne sq kv1 rest
    by_cases hq : queryContains sq (combineKey kv1.1 kv2.1) = true
    · rw [if_pos hq]
      exact pairwise_bucketInsert d _ _ h
    · rw [if_neg hq]
      exact h

theorem pairwise_crossInsert (sq : Word) : ∀ (b1 b2 d : Bucket),
    d.Pairwise (fun x y => lexLt x.1 y.1 = true) →
    (crossInsert sq b1 b2 d).Pairwise (fun x y => lexLt x.1 y.1 = true)
  | [], _, _, h => h
  | kv1 :: rest, b2, d, h => by
    rw [show crossInsert sq (kv1 :: rest) b2 d =
        crossInsert sq rest b2 (crossOne sq kv1 d b2) from rfl]
    exact pairwise_crossInsert sq rest b2 _ (pairwise_crossOne sq kv1 b2 d h)

/-! ### Letters of combined keys -/

theorem letters_combineKey (a b : Word) :
    (letters (combineKey a b)).length = (letters a).length + (letters b).length := by
  unfold combineKey
  by_cases h : lexLt a b = true
  · rw [if_pos h, letters_append]
    simp [letters_space_cons]
  · rw [if_neg h, letters_append]
    simp [letters_space_cons]
    omega

theorem letters_combineKey_ne_nil (a b : Word) (ha : letters a ≠ []) :
    letters (combineKey a b) ≠ [] := by
  intro e
  have hlen := letters_combineKey a b
  rw [e] at hlen
  simp at hlen
  exact ha (List.length_eq_zero.1 (by omega))

/-! ### Preservation of the store invariant -/

theorem storeInv_insert (sq : Word) (st : Store) (L : Nat) (k : Word) (v : Nat)
    (hinv : StoreInv sq st)
    (hk : (letters k).length = L ∧ letters k ≠ [] ∧ List.Subperm (sanitize k) sq) :
    StoreInv sq (setBucket st L (bucketInsert (getBucket st L) k v)) := by
  intro L' kv hmem
  by_cases hL : L' = L
  · subst hL
    by_cases hlt : L' < st.length
    · rw [getBucket_setBucket_eq st L' _ hlt] at hmem
      rcases mem_bucketInsert _ k v kv hmem with h | h
      · exact hinv L' kv h
      · rw [h]
        exact hk
    · rw [setBucket_oob st L' _ (by omega)] at hmem
      exact hinv L' kv hmem
  · rw [getBucket_setBucket_ne st L L' _ hL] at hmem
    exact hinv L' kv hmem

theorem storeInv_seedOne (mL : Nat) (sq : Word) (st : Store) (w : Word) (hw : ' ' ∉ w)
    (hinv : StoreInv sq st) : StoreInv sq (seedOne mL sq st w) := by
  unfold seedOne
  by_cases h1 : w.length > mL
  · rw [if_pos h1]
    exact hinv
  · rw [if_neg h1]
    by_cases h2 : queryContains sq w = true
    · rw [if_neg (by simp [h2])]
      have hw' : letters w = w := letters_eq_self hw
      have hne : w ≠ [] := queryContains_ne_nil h2
      have hsne : sanitize w ≠ [] := by
        rw [Ne, sanitize_eq_nil_iff, hw']
        exact hne
      exact storeInv_insert sq st w.length w _ hinv
        ⟨by rw [hw'], by rw [hw']; exact hne,
          ((queryContains_iff_sublist sq w hsne).1 h2).subperm⟩
    · rw [if_pos (by simp [Bool.eq_false_iff.2 h2])]
      exact hinv

theorem storeInv_seedList (mL : Nat) (sq : Word) : ∀ (ws : List Word) (st : Store),
    (∀ w ∈ ws, ' ' ∉ w) → StoreInv sq st → StoreInv sq (ws.foldl (seedOne mL sq) st)
  | [], _, _, h => h
  | w :: ws, st, hws, h => by
    rw [List.foldl_cons]
    exact storeInv_seedList mL sq ws _
      (fun w' hw' => hws w' (List.mem_cons.2 (Or.inr hw')))
      (storeInv_seedOne mL sq st w (hws w (List.mem_cons_self _ _)) h)

theorem storeInv_permuteStep (sq : Word) (L : Nat) (st : Store) (lr : Nat × Nat)
    (hsum : lr.1 + lr.2 = L) (hinv : StoreInv sq st) :
    StoreInv sq (permuteStep sq L st lr) := by
  unfold permuteStep
  by_cases he : ((getBucket st lr.1).isEmpty || (getBucket st lr.2).isEmpty) = true
  · rw [if_pos he]
    exact hinv
  · rw [if_neg he]
    intro L' kv hmem
    by_cases hL : L' = L
    · subst hL
      by_cases hlt : L' < st.length
      · rw [getBucket_setBucket_eq _ _ _ hlt] at hmem
        rcases mem_crossInsert sq _ _ _ kv hmem with h | ⟨kv1, hm1, kv2, hm2, hq, he2⟩
        · exact hinv L' kv h
        · obtain ⟨h1len, h1ne, _⟩ := hinv lr.1 kv1 hm1
          obtain ⟨h2len, _, _⟩ := hinv lr.2 kv2 hm2
          rw [he2]
          have hsne : sanitize (combineKey kv1.1 kv2.1) ≠ [] := by
            rw [Ne, sanitize_eq_nil_iff]
            exact letters_combineKey_ne_nil _ _ h1ne
          refine ⟨?_, letters_combineKey_ne_nil _ _ h1ne,
            ((queryContains_iff_sublist sq _ hsne).1 hq).subperm⟩
          rw [letters_combineKey, h1len, h2len]
          exact hsum
      · rw [setBucket_oob _ _ _ (by omega)] at hmem
        exact hinv L' kv hmem
    · rw [getBucket_setBucket_ne _ _ _ _ hL] at hmem
      exact hinv L' kv hmem

theorem storeInv_foldSplits (sq : Word) (L : Nat) : ∀ (ps : List (Nat × Nat)) (st : Store),
    (∀ p ∈ ps, p.1 + p.2 = L) → StoreInv sq st →
    StoreInv sq (ps.foldl (permuteStep sq L) st)
  | [], _, _, h => h
  | p :: ps, st, hps, h => by
    rw [List.foldl_cons]
    exact storeInv_foldSplits sq L ps _
      (fun q hq => hps q (List.mem_cons.2 (Or.inr hq)))
      (storeInv_permuteStep sq L st p (hps p (List.mem_cons_self _ _)) h)

theorem storeInv_permute (sq : Word) (st : Store) (L m : Nat) (h : StoreInv sq st) :
    StoreInv sq (permute sq st L m) :=
  storeInv_foldSplits sq L _ st
    (fun p hp => ((mem_permuteSplits L m p.1 p.2).1 hp).1) h

theorem storeInv_applyOps (sq : Word) : ∀ (ops : List (Nat × Nat)) (st : Store),
    StoreInv sq st → StoreInv sq (applyOps sq st ops)
  | [], _, h => h
  | op :: ops, st, h => by
    rw [show applyOps sq st (op :: ops) = applyOps sq (permute sq st op.1 op.2) ops from rfl]
    exact storeInv_applyOps sq ops _ (storeInv_permute sq st op.1 op.2 h)

theorem storeInv_initStore (sq : Word) (n : Nat) : StoreInv sq (initStore n) := by
  intro L kv hmem
  rw [getBucket_initStore] at hmem
  exact absurd hmem (List.not_mem_nil kv)

theorem storeInv_builtStore (query : Word) (ws : List Word) (ops : List (Nat × Nat))
    (hw : ∀ w ∈ ws, ' ' ∉ w) : StoreInv (sanitize query) (builtStore query ws ops) := by
  unfold builtStore
  exact storeInv_applyOps _ ops _
    (storeInv_seedList _ _ ws _ hw (storeInv_initStore _ _))

/-! ### Preservation of bucket sortedness -/

theorem bucketsSorted_set (st : Store) (L : Nat) (b : Bucket) (h : BucketsSorted st)
    (hb : b.Pairwise (fun x y => lexLt x.1 y.1 = true)) :
    BucketsSorted (setBucket st L b) := by
  intro L'
  by_cases hL : L' = L
  · subst hL
    by_cases hlt : L' < st.length
    · rw [getBucket_setBucket_eq _ _ _ hlt]
      exact hb
    · rw [setBucket_oob _ _ _ (by omega)]
      exact h L'
  · rw [getBucket_setBucket_ne _ _ _ _ hL]
    exact h L'

theorem bucketsSorted_seedOne (mL : Nat) (sq : Word) (st : Store) (w : Word)
    (h : BucketsSorted st) : BucketsSorted (seedOne mL sq st w) := by
  unfold seedOne
  by_cases h1 : w.length > mL
  · rw [if_pos h1]
    exact h
  · rw [if_neg h1]
    by_cases h2 : (!queryContains sq w) = true
    · rw [if_pos h2]
      exact h
    · rw [if_neg h2]
      exact bucketsSorted_set st w.length _ h (pairwise_bucketInsert _ _ _ (h w.length))

theorem bucketsSorted_seedList (mL : Nat) (sq : Word) : ∀ (ws : List Word) (st : Store),
    BucketsSorted st → BucketsSorted (ws.foldl (seedOne mL sq) st)
  | [], _, h => h
  | w :: ws, st, h => by
    rw [List.foldl_cons]
    exact bucketsSorted_seedList mL sq ws _ (bucketsSorted_seedOne mL sq st w h)

theorem bucketsSorted_permuteStep (sq : Word) (L : Nat) (st : Store) (lr : Nat × Nat)
    (h : BucketsSorted st) : BucketsSorted (permuteStep sq L st lr) := by
  unfold permuteStep
  by_cases he : ((getBucket st lr.1).isEmpty || (getBucket st lr.2).isEmpty) = true
  · rw [if_pos he]
    exact h
  · rw [if_neg he]
    exact bucketsSorted_set st L _ h (pairwise_crossInsert sq _ _ _ (h L))

theorem bucketsSorted_foldSplits (sq : Word) (L : Nat) :
    ∀ (ps : List (Nat × Nat)) (st : Store),
    BucketsSorted st → BucketsSorted (ps.foldl (permuteStep sq L) st)
  | [], _, h => h
  | p :: ps, st, h => by
    rw [List.foldl_cons]
    exact bucketsSorted_foldSplits sq L ps _ (bucketsSorted_permuteStep sq L st p h)

theorem bucketsSorted_permute (sq : Word) (st : Store) (L m : Nat) (h : BucketsSorted st) :
    BucketsSorted (permute sq st L m) :=
  bucketsSorted_foldSplits sq L _ st h

theorem bucketsSorted_applyOps (sq : Word) : ∀ (ops : List (Nat × Nat)) (st : Store),
    BucketsSorted st → BucketsSorted (applyOps sq st ops)
  | [], _, h => h
  | op :: ops, st, h => by
    rw [show applyOps sq st (op :: ops) = applyOps sq (permute sq st op.1 op.2) ops from rfl]
    exact bucketsSorted_applyOps sq ops _ (bucketsSorted_permute sq st op.1 op.2 h)

theorem bucketsSorted_initStore (n : Nat) : BucketsSorted (initStore n) := by
  intro L
  rw [getBucket_initStore]
  exact List.Pairwise.nil

theorem bucketsSorted_builtStore (query : Word) (ws : List Word) (ops : List (Nat × Nat)) :
    BucketsSorted (builtStore query ws ops) := by
  unfold builtStore
  exact bucketsSorted_applyOps _ ops _
    (bucketsSorted_seedList _ _ ws _ (bucketsSorted_initStore _))

/-! ### The output order -/

theorem rankLe_iff (a b : Word × Nat) :
    rankLe a b ↔ b.2 < a.2 ∨ (a.2 = b.2 ∧ lexLt b.1 a.1 = false) := by
  unfold rankLe sortScores
  by_cases h : a.2 = b.2
  · simp [h]
  · simp [h]
    omega

instance : IsTotal (Word × Nat) rankLe :=
  ⟨fun a b => by
    rw [rankLe_iff, rankLe_iff]
    rcases lt_trichotomy a.2 b.2 with h | h | h
    · exact Or.inr (Or.inl h)
    · by_cases hl : lexLt b.1 a.1 = true
      · exact Or.inr (Or.inr ⟨h.symm, lexLt_asymm _ _ hl⟩)
      · exact Or.inl (Or.inr ⟨h, by simpa using hl⟩)
    · exact Or.inl (Or.inl h)⟩

instance : IsTrans (Word × Nat) rankLe :=
  ⟨fun a b c hab hbc => by
    rw [rankLe_iff] at hab hbc ⊢
    rcases hab with h1 | ⟨e1, l1⟩ <;> rcases hbc with h2 | ⟨e2, l2⟩
    · exact Or.inl (lt_trans h2 h1)
    · exact Or.inl (by omega)
    · exact Or.inl (by omega)
    · refine Or.inr ⟨by omega, ?_⟩
      by_cases hbc1 : lexLt b.1 c.1 = true
      · by_cases hab1 : lexLt a.1 b.1 = true
        · exact lexLt_asymm _ _ (lexLt_trans _ _ _ hab1 hbc1)
        · rw [lexLt_eq_of_not a.1 b.1 (by simpa using hab1) l1]
          exact l2
      · rw [← lexLt_eq_of_not b.1 c.1 (by simpa using hbc1) l2]
        exact l1⟩

/-! ### Ranking characterization -/

theorem queryContains_eq_sanitize_iff (sq : Word) (hsq : List.Sorted (· ≤ ·) sq)
    (k : Word) (hlen : (letters k).length = sq.length) (hne : letters k ≠ []) :
    (queryContains sq k = true ↔ sanitize k = sq) := by
  have hsne : sanitize k ≠ [] := by
    rw [Ne, sanitize_eq_nil_iff]
    exact hne
  rw [queryContains_iff_sublist sq k hsne]
  constructor
  · intro h
    have hlen2 : sq.length ≤ (sanitize k).length := by
      rw [sanitize_length, hlen]
    exact List.eq_of_perm_of_sorted (h.subperm.perm_of_length_le hlen2)
      (sanitize_sorted k) hsq
  · intro h
    rw [h]

theorem rank_characterization (sq : Word) (st : Store)
    (hsq : List.Sorted (· ≤ ·) sq) (hinv : StoreInv sq st) (hsort : BucketsSorted st) :
    (∀ e, e ∈ rank sq st ↔ e ∈ getBucket st sq.length ∧ sanitize e.1 = sq)
    ∧ (rank sq st).Pairwise strictRank ∧ (rank sq st).Nodup := by
  have hpt : ∀ kv ∈ getBucket st sq.length,
      queryContains sq kv.1 = decide (sanitize kv.1 = sq) := by
    intro kv hkv
    obtain ⟨hlen, hne, _⟩ := hinv sq.length kv hkv
    have hiff := queryContains_eq_sanitize_iff sq hsq kv.1 hlen hne
    by_cases h : sanitize kv.1 = sq
    · simp [h, hiff.2 h]
    · simp only [h, decide_False]
      exact (Bool.eq_false_iff).2 fun hc => h (hiff.1 hc)
  have hperm0 : List.Perm (rank sq st)
      ((getBucket st sq.length).filter (fun kv => queryContains sq kv.1)) :=
    List.perm_insertionSort _ _
  have hfilter : (getBucket st sq.length).filter (fun kv => queryContains sq kv.1) =
      (getBucket st sq.length).filter (fun kv => decide (sanitize kv.1 = sq)) :=
    List.filter_congr hpt
  have hmem : ∀ e, e ∈ rank sq st ↔ e ∈ getBucket st sq.length ∧ sanitize e.1 = sq := by
    intro e
    rw [hperm0.mem_iff, hfilter, List.mem_filter]
    simp only [decide_eq_true_eq]
  have hs : List.Sorted rankLe (rank sq st) := List.sorted_insertionSort rankLe _
  have hkeys : ((getBucket st sq.length).filter
      (fun kv => queryContains sq kv.1)).Pairwise (fun x y => lexLt x.1 y.1 = true) :=
    List.Pairwise.sublist (List.filter_sublist _) (hsort sq.length)
  have hnodupkeys : (rank sq st).Pairwise (fun x y => x.1 ≠ y.1) := by
    have h1 : (((getBucket st sq.length).filter
        (fun kv => queryContains sq kv.1)).map Prod.fst).Nodup := by
      rw [List.Nodup, List.pairwise_map]
      exact hkeys.imp fun h e => by
        rw [e, lexLt_irrefl] at h
        exact Bool.false_ne_true h
    have h2 : ((rank sq st).map Prod.fst).Nodup :=
      ((hperm0.map Prod.fst).nodup_iff).2 h1
    rw [List.Nodup, List.pairwise_map] at h2
    exact h2
  have hstrict : (rank sq st).Pairwise strictRank := by
    refine (hs.and hnodupkeys).imp ?_
    rintro a b ⟨hle, hne⟩
    rcases (rankLe_iff a b).1 hle with h | ⟨e, l⟩
    · exact Or.inl h
    · by_cases hab : lexLt a.1 b.1 = true
      · exact Or.inr ⟨e, hab⟩
      · exact absurd (lexLt_eq_of_not a.1 b.1 (by simpa using hab) l) hne
  have hnodup : (rank sq st).Nodup := by
    refine hstrict.imp ?_
    intro a b h e
    rcases h with h | ⟨_, h⟩
    · rw [e] at h
      exact lt_irrefl _ h
    · rw [e, lexLt_irrefl] at h
      exact Bool.false_ne_true h
  exact ⟨hmem, hstrict, hnodup⟩

/-! ### Frame properties of permute -/

theorem getBucket_permuteStep_ne (sq : Word) (L : Nat) (st : Store) (lr : Nat × Nat)
    (j : Nat) (hj : j ≠ L) : getBucket (permuteStep sq L st lr) j = getBucket st j := by
  unfold permuteStep
  by_cases he : ((getBucket st lr.1).isEmpty || (getBucket st lr.2).isEmpty) = true
  · rw [if_pos he]
  · rw [if_neg he]
    exact getBucket_setBucket_ne st L j _ hj

theorem getBucket_foldSplits_ne (sq : Word) (L : Nat) : ∀ (ps : List (Nat × Nat)) (st : Store)
    (j : Nat), j ≠ L → getBucket (ps.foldl (permuteStep sq L) st) j = getBucket st j
  | [], _, _, _ => rfl
  | p :: ps, st, j, hj => by
    rw [List.foldl_cons, getBucket_foldSplits_ne sq L ps _ j hj,
      getBucket_permuteStep_ne sq L st p j hj]

theorem length_permuteStep (sq : Word) (L : Nat) (st : Store) (lr : Nat × Nat) :
    (permuteStep sq L st lr).length = st.length := by
  unfold permuteStep
  by_cases he : ((getBucket st lr.1).isEmpty || (getBucket st lr.2).isEmpty) = true
  · rw [if_pos he]
  · rw [if_neg he]
    exact length_setBucket st L _

theorem stepInserts_congr (sq : Word) (st st' : Store) (lr : Nat × Nat)
    (h1 : getBucket st' lr.1 = getBucket st lr.1)
    (h2 : getBucket st' lr.2 = getBucket st lr.2) :
    stepInserts sq st' lr = stepInserts sq st lr := by
  unfold stepInserts
  rw [h1, h2]

theorem flatMap_congr_mem {α β : Type} (f g : α → List β) : ∀ (l : List α),
    (∀ a ∈ l, f a = g a) → l.flatMap f = l.flatMap g
  | [], _ => rfl
  | a :: l, h => by
    rw [List.flatMap_cons, List.flatMap_cons, h a (List.mem_cons_self _ _),
      flatMap_congr_mem f g l (fun b hb => h b (List.mem_cons.2 (Or.inr hb)))]

theorem insertList_append (d : Bucket) (xs ys : List (Word × Nat)) :
    insertList d (xs ++ ys) = insertList (insertList d xs) ys :=
  List.foldl_append _ _ _ _

theorem foldl_eq_insertList_filterMap (f : (Word × Nat) → Option (Word × Nat))
    (g : Bucket → (Word × Nat) → Bucket)
    (hg : ∀ d kv2, g d kv2 = match f kv2 with
      | some p => bucketInsert d p.1 p.2
      | none => d) :
    ∀ (l : List (Word × Nat)) (d : Bucket), l.foldl g d = insertList d (l.filterMap f)
  | [], _ => rfl
  | a :: l, d => by
    rw [List.foldl_cons, foldl_eq_insertList_filterMap f g hg l (g d a), List.filterMap_cons]
    cases hfa : f a with
    | none =>
      rw [hg d a, hfa]
    | some p =>
      rw [hg d a, hfa]
      rfl

theorem crossOne_eq_insertList (sq : Word) (kv1 : Word × Nat) (b2 d : Bucket) :
    crossOne sq kv1 d b2 = insertList d (b2.filterMap (fun kv2 =>
      if queryContains sq (combineKey kv1.1 kv2.1) then
        some (combineKey kv1.1 kv2.1, combineScore kv1.2 kv2.2) else none)) := by
  apply foldl_eq_insertList_filterMap
  intro d kv2
  by_cases hq : queryContains sq (combineKey kv1.1 kv2.1) = true
  · rw [if_pos hq, if_pos hq]
  · rw [if_neg hq, if_neg hq]

theorem crossInsert_eq_insertList (sq : Word) : ∀ (b1 : Bucket) (b2 d : Bucket),
    crossInsert sq b1 b2 d = insertList d (b1.flatMap (fun kv1 => b2.filterMap (fun kv2 =>
      if queryContains sq (combineKey kv1.1 kv2.1) then
        some (combineKey kv1.1 kv2.1, combineScore kv1.2 kv2.2) else none)))
  | [], _, _ => rfl
  | kv1 :: rest, b2, d => by
    rw [show crossInsert sq (kv1 :: rest) b2 d =
        crossInsert sq rest b2 (crossOne sq kv1 d b2) from rfl]
    rw [crossInsert_eq_insertList sq rest b2 _, List.flatMap_cons, insertList_append,
      crossOne_eq_insertList sq kv1 b2 d]

theorem permuteStep_eq (sq : Word) (L : Nat) (st : Store) (lr : Nat × Nat) :
    permuteStep sq L st lr =
      setBucket st L (insertList (getBucket st L) (stepInserts sq st lr)) := by
  unfold permuteStep stepInserts
  by_cases he : ((getBucket st lr.1).isEmpty || (getBucket st lr.2).isEmpty) = true
  · rw [if_pos he, if_pos he]
    rw [show insertList (getBucket st L) [] = getBucket st L from rfl,
      setBucket_getBucket_self]
  · rw [if_neg he, if_neg he]
    rw [crossInsert_eq_insertList]

theorem foldSplits_oob (sq : Word) (L : Nat) : ∀ (ps : List (Nat × Nat)) (st : Store),
    st.length ≤ L → ps.foldl (permuteStep sq L) st = st
  | [], _, _ => rfl
  | p :: ps, st, hL => by
    have hstep : permuteStep sq L st p = st := by
      unfold permuteStep
      by_cases he : ((getBucket st p.1).isEmpty || (getBucket st p.2).isEmpty) = true
      · rw [if_pos he]
      · rw [if_neg he]
        exact setBucket_oob st L _ hL
    rw [List.foldl_cons, hstep, foldSplits_oob sq L ps st hL]

theorem foldSplits_eq_of_lt (sq : Word) (L : Nat) : ∀ (ps : List (Nat × Nat)) (st : Store),
    L < st.length → (∀ p ∈ ps, p.1 ≠ L ∧ p.2 ≠ L) →
    ps.foldl (permuteStep sq L) st =
      setBucket st L (insertList (getBucket st L) (ps.flatMap (stepInserts sq st)))
  | [], st, _, _ => by
    rw [show ([] : List (Nat × Nat)).flatMap (stepInserts sq st) = [] from rfl]
    exact (setBucket_getBucket_self st L).symm
  | p :: ps, st, hL, hps => by
    rw [List.foldl_cons,
      foldSplits_eq_of_lt sq L ps (permuteStep sq L st p)
        (by rw [length_permuteStep]; exact hL)
        (fun q hq => hps q (List.mem_cons.2 (Or.inr hq)))]
    have hflat : ps.flatMap (stepInserts sq (permuteStep sq L st p)) =
        ps.flatMap (stepInserts sq st) := by
      apply flatMap_congr_mem
      intro q hq
      exact stepInserts_congr sq st _ q
        (getBucket_permuteStep_ne sq L st p q.1 (hps q (List.mem_cons.2 (Or.inr hq))).1)
        (getBucket_permuteStep_ne sq L st p q.2 (hps q (List.mem_cons.2 (Or.inr hq))).2)
    rw [hflat]
    rw [show getBucket (permuteStep sq L st p) L =
        insertList (getBucket st L) (stepInserts sq st p) from by
      rw [permuteStep_eq sq L st p]
      exact getBucket_setBucket_eq _ _ _ hL]
    rw [permuteStep_eq sq L st p, setBucket_setBucket, List.flatMap_cons, insertList_append]

theorem permute_eq_insertList (sq : Word) (st : Store) (L m : Nat) (hm : 1 ≤ m) :
    permute sq st L m =
      setBucket st L (insertList (getBucket st L) (permuteInserts sq st L m)) := by
  have hps : ∀ p ∈ permuteSplits L m, p.1 ≠ L ∧ p.2 ≠ L := by
    intro p hp
    obtain ⟨e, h1, h2⟩ := (mem_permuteSplits L m p.1 p.2).1 hp
    omega
  by_cases hL : L < st.length
  · exact foldSplits_eq_of_lt sq L _ st hL hps
  · rw [setBucket_oob st L _ (by omega)]
    exact foldSplits_oob sq L _ st (by omega)

theorem permuteInserts_congr (sq : Word) (st st' : Store) (L m : Nat) (hm : 1 ≤ m)
    (h : ∀ j, j < L → getBucket st' j = getBucket st j) :
    permuteInserts sq st' L m = permuteInserts sq st L m := by
  unfold permuteInserts
  apply flatMap_congr_mem
  intro p hp
  obtain ⟨e, h1, h2⟩ := (mem_permuteSplits L m p.1 p.2).1 hp
  exact stepInserts_congr sq st st' p (h p.1 (by omega)) (h p.2 (by omega))

/-! ### Helper facts for the empty-query behavior -/

theorem seedOne_maxLength_zero (sq : Word) (st : Store) (w : Word) :
    seedOne 0 sq st w = st := by
  unfold seedOne
  by_cases h1 : w.length > 0
  · rw [if_pos h1]
  · rw [if_neg h1]
    have hw : w = [] := List.length_eq_zero.1 (by omega)
    subst hw
    rw [if_pos (show (!queryContains sq []) = true from rfl)]

theorem seedList_maxLength_zero (sq : Word) : ∀ (ws : List Word) (st : Store),
    ws.foldl (seedOne 0 sq) st = st
  | [], _ => rfl
  | w :: ws, st => by
    rw [List.foldl_cons, seedOne_maxLength_zero sq st w,
      seedList_maxLength_zero sq ws st]

theorem solveMinLength_zero (fa : Bool) : solveMinLength 0 fa = 1 := by
  cases fa <;> rfl

/-! ### Claim theorems -/

/-- C1, counterexample to the claim as stated: seeding the query "abc" with
the candidate line "ab " (trailing space) and expanding produces a ranked
output entry whose canonical multiset differs from the query's, so the output
is not the set of entries with multiset equal to the query's. -/
theorem c1_counterexample :
    rank (sanitize ['a', 'b', 'c'])
      (builtStore ['a', 'b', 'c'] [['a', 'b', ' ']] [(3, 1)]) = [(['a', 'b', ' '], 9)]
    ∧ sanitize ['a', 'b', ' '] ≠ sanitize ['a', 'b', 'c'] := by
  decide

/-- C1 (amended to stores seeded from space-free candidate words): the ranked
output is exactly the set of entries of `bucket[queryLength]` whose canonical
multiset equals the query's — no duplicates, no omissions — ordered by score
descending with ties by text ascending. -/
theorem c1_rank_exact (query : Word) (ws : List Word) (ops : List (Nat × Nat))
    (hw : ∀ w ∈ ws, ' ' ∉ w) :
    (∀ e, e ∈ rank (sanitize query) (builtStore query ws ops) ↔
      e ∈ getBucket (builtStore query ws ops) (sanitize query).length ∧
        sanitize e.1 = sanitize query)
    ∧ (rank (sanitize query) (builtStore query ws ops)).Pairwise strictRank
    ∧ (rank (sanitize query) (builtStore query ws ops)).Nodup :=
  rank_characterization (sanitize query) (builtStore query ws ops)
    (sanitize_sorted query) (storeInv_builtStore query ws ops hw)
    (bucketsSorted_builtStore query ws ops)

/-- Witness for C1's amended theorem at a concrete seeded and expanded store. -/
theorem c1_witness :
    (∀ e, e ∈ rank (sanitize ['a', 'b'])
        (builtStore ['a', 'b'] [['a'], ['b'], ['b', 'a']] [(2, 1)]) ↔
      e ∈ getBucket (builtStore ['a', 'b'] [['a'], ['b'], ['b', 'a']] [(2, 1)])
          (sanitize ['a', 'b']).length ∧
        sanitize e.1 = sanitize ['a', 'b'])
    ∧ (rank (sanitize ['a', 'b'])
        (builtStore ['a', 'b'] [['a'], ['b'], ['b', 'a']] [(2, 1)])).Pairwise strictRank
    ∧ (rank (sanitize ['a', 'b'])
        (builtStore ['a', 'b'] [['a'], ['b'], ['b', 'a']] [(2, 1)])).Nodup :=
  c1_rank_exact ['a', 'b'] [['a'], ['b'], ['b', 'a']] [(2, 1)] (by decide)

/-- C2, counterexample to the claim as stated: seeding the query "a" with the
all-space candidate line " " stores a key in `bucket[1]` whose letters-only
length is 0, not 1. -/
theorem c2_counterexample :
    ([' '], 1) ∈ getBucket (builtStore ['a'] [[' ']] []) 1
    ∧ (letters [' ']).length ≠ 1 := by
  decide

/-- C2 (amended to seeding from space-free candidate words): after seeding and
any sequence of permute calls with `minPart ≥ 1`, every key in `bucket[L]` has
letters-only length exactly `L` and its canonical multiset is contained in the
query's canonical multiset. -/
theorem c2_bucket_invariant (query : Word) (ws : List Word) (ops : List (Nat × Nat))
    (hw : ∀ w ∈ ws, ' ' ∉ w) (hops : ∀ p ∈ ops, 1 ≤ p.2) :
    ∀ L kv, kv ∈ getBucket (builtStore query ws ops) L →
      (letters kv.1).length = L ∧ List.Subperm (sanitize kv.1) (sanitize query) :=
  fun L kv h =>
    ⟨(storeInv_builtStore query ws ops hw L kv h).1,
      (storeInv_builtStore query ws ops hw L kv h).2.2⟩

/-- Witness for C2's amended theorem at a concrete entry of a concrete seeded
and expanded store: the combination "a b" sits in bucket 2. -/
theorem c2_witness :
    (letters (['a', ' ', 'b'] : Word)).length = 2
    ∧ List.Subperm (sanitize ['a', ' ', 'b']) (sanitize ['a', 'b']) :=
  c2_bucket_invariant ['a', 'b'] [['a'], ['b']] [(2, 1)] (by decide) (by decide)
    2 (['a', ' ', 'b'], 2) (by decide)

/-- C3: for every word with a non-empty canonical multiset, `queryContains`
returns true iff that multiset is a sub-multiset of the query's canonical
multiset; in particular a needle longer than the haystack yields false. -/
theorem c3_queryContains_subperm (query word : Word) (h : sanitize word ≠ []) :
    (queryContains (sanitize query) word = true ↔
      List.Subperm (sanitize word) (sanitize query))
    ∧ ((sanitize query).length < (sanitize word).length →
      queryContains (sanitize query) word = false) := by
  have hiff : queryContains (sanitize query) word = true ↔
      List.Subperm (sanitize word) (sanitize query) := by
    rw [queryContains_iff_sublist _ word h]
    exact sublist_iff_subperm_of_sorted (sanitize_sorted word) (sanitize_sorted query)
  refine ⟨hiff, fun hlen => ?_⟩
  by_cases hc : queryContains (sanitize query) word = true
  · have := (hiff.1 hc).length_le
    omega
  · simpa using hc

/-- Witness for C3's theorem at a concrete query and word. -/
theorem c3_witness :
    (queryContains (sanitize ['b', 'a', 'c']) ['a', 'b'] = true ↔
      List.Subperm (sanitize ['a', 'b']) (sanitize ['b', 'a', 'c']))
    ∧ ((sanitize ['b', 'a', 'c']).length < (sanitize ['a', 'b']).length →
      queryContains (sanitize ['b', 'a', 'c']) ['a', 'b'] = false) :=
  c3_queryContains_subperm ['b', 'a', 'c'] ['a', 'b'] (by decide)

/-- C4, counterexample to the claim as stated: the all-space word " " has an
empty canonical multiset, yet `queryContains` returns true for it against the
query "a" (the emptiness test is on the raw string, before sanitizing). -/
theorem c4_counterexample :
    sanitize [' '] = [] ∧ queryContains (sanitize ['a']) [' '] = true := by
  decide

/-- C4 (amended): only the literally empty word is always rejected; a
non-empty word whose canonical multiset is empty (spaces only) is accepted
precisely when the query's canonical multiset is non-empty. -/
theorem c4_empty_needle (query word : Word) (h : sanitize word = []) :
    (word = [] → queryContains (sanitize query) word = false)
    ∧ (word ≠ [] →
      (queryContains (sanitize query) word = true ↔ sanitize query ≠ [])) := by
  constructor
  · intro e
    rw [e]
    rfl
  · intro hne
    unfold queryContains
    rw [if_neg (by simpa using hne), h]
    exact scan_nil_iff (sanitize query)

/-- Witness for C4's amended theorem at the counterexample inputs. -/
theorem c4_witness :
    (([' '] : Word) = [] → queryContains (sanitize ['a']) [' '] = false)
    ∧ (([' '] : Word) ≠ [] →
      (queryContains (sanitize ['a']) [' '] = true ↔ sanitize ['a'] ≠ [])) :=
  c4_empty_needle ['a'] [' '] (by decide)

/-- C5: `permute(L, minPart)` enumerates exactly the unordered splits
`{leftLen, rightLen}` with `leftLen + rightLen = L` and
`minPart ≤ rightLen ≤ leftLen`, each exactly once, with `leftLen` descending
from `L - minPart`; an empty-bucket split is a no-op; and for `L < 2·minPart`
no split is processed and the store is unchanged. -/
theorem c5_split_enumeration (L m : Nat) (sq : Word) (st : Store) (hm : 1 ≤ m) :
    (∀ l r, ((l, r) ∈ permuteSplits L m ↔ l + r = L ∧ m ≤ r ∧ r ≤ l))
    ∧ (permuteSplits L m).Pairwise (fun p q => q.1 < p.1)
    ∧ (2 * m ≤ L → (permuteSplits L m).head? = some (L - m, m))
    ∧ (∀ l r, ((getBucket st l).isEmpty || (getBucket st r).isEmpty) = true →
        permuteStep sq L st (l, r) = st)
    ∧ (L < 2 * m → permuteSplits L m = [] ∧ permute sq st L m = st) := by
  refine ⟨fun l r => mem_permuteSplits L m l r, permuteSplits_pairwise L m,
    fun h => permuteSplits_head L m h, ?_, ?_⟩
  · intro l r he
    unfold permuteStep
    rw [if_pos he]
  · intro h
    refine ⟨permuteSplits_nil L m h, ?_⟩
    unfold permute
    rw [permuteSplits_nil L m h]
    rfl

/-- Witness for C5's theorem at concrete arguments. -/
theorem c5_witness :
    (∀ l r, ((l, r) ∈ permuteSplits 4 1 ↔ l + r = 4 ∧ 1 ≤ r ∧ r ≤ l))
    ∧ (permuteSplits 4 1).Pairwise (fun p q => q.1 < p.1)
    ∧ (2 * 1 ≤ 4 → (permuteSplits 4 1).head? = some (4 - 1, 1))
    ∧ (∀ l r, ((getBucket (initStore 4) l).isEmpty ||
          (getBucket (initStore 4) r).isEmpty) = true →
        permuteStep ['a'] 4 (initStore 4) (l, r) = initStore 4)
    ∧ (4 < 2 * 1 → permuteSplits 4 1 = [] ∧ permute ['a'] (initStore 4) 4 1 = initStore 4) :=
  c5_split_enumeration 4 1 ['a'] (initStore 4) (by decide)

/-- C6, counterexample to the claim as stated: the query " " sanitizes to zero
letters, yet the program runs to completion and silently produces an empty
result list instead of refusing with an error. -/
theorem c6_counterexample :
    sanitize [' '] = [] ∧ program [' '] (some [['a']]) false = some [] := by
  decide

/-- C6 (amended): only a raw-empty query is refused (usage message, no run);
a non-empty query sanitizing to zero letters is not rejected — the engine runs
and silently returns an empty result list. -/
theorem c6_empty_query (query : Word) (src : Option (List Word)) (fa : Bool)
    (h : sanitize query = []) :
    (query = [] → program query src fa = none)
    ∧ (query ≠ [] → program query src fa = some []) := by
  constructor
  · intro e
    rw [e]
    rfl
  · intro hne
    have hlen : ¬(query.length < 1) := by
      cases query
      · exact absurd rfl hne
      · simp
    unfold program
    rw [if_neg hlen]
    simp only [h, List.length_nil]
    have hseed : (seed ([] : Word) 0 (initStore 0) src).2 = initStore 0 := by
      cases src with
      | none => rfl
      | some ws => exact seedList_maxLength_zero [] ws (initStore 0)
    rw [hseed]
    cases fa <;> rfl

/-- Witness for C6's amended theorem at the counterexample inputs. -/
theorem c6_witness :
    (([' '] : Word) = [] → program [' '] (some [['a']]) false = none)
    ∧ (([' '] : Word) ≠ [] → program [' '] (some [['a']]) false = some []) :=
  c6_empty_query [' '] (some [['a']]) false (by decide)

/-- C7: when the candidate source cannot be opened, `seed` returns the failure
flag to its caller and the store is exactly unchanged; on a fresh store every
bucket remains empty. -/
theorem c7_seed_failure (sq : Word) (mL qL : Nat) (st : Store) :
    seed sq mL st none = (false, st)
    ∧ (∀ i, getBucket (seed sq mL (initStore qL) none).2 i = []) :=
  ⟨rfl, fun i => getBucket_initStore qL i⟩

/-- C8: combining `(a, b)` and `(b, a)` yields the identical stored key — the
lexicographically smaller word, a space, then the larger — and the identical
summed score. -/
theorem c8_combine_comm (a b : Word) (sa sb : Nat) :
    combineKey a b = combineKey b a
    ∧ combineKey a b = (if lexLt a b = true then a ++ ' ' :: b else b ++ ' ' :: a)
    ∧ combineScore sa sb = combineScore sb sa := by
  refine ⟨?_, rfl, Nat.add_comm sa sb⟩
  unfold combineKey
  by_cases h1 : lexLt a b = true
  · rw [if_pos h1, if_neg (by simp [lexLt_asymm a b h1])]
  · by_cases h2 : lexLt b a = true
    · rw [if_neg h1, if_pos h2]
    · have e : a = b := lexLt_eq_of_not a b (by simpa using h1) (by simpa using h2)
      rw [if_neg h1, if_neg h2, e]

/-- C9: `permute(L, minPart)` writes only to `bucket[L]`; every processed
split reads only buckets of index strictly below `L`; the destination bucket
is its old content plus inserts computed solely from the lower buckets. -/
theorem c9_permute_frame (sq : Word) (st : Store) (L m : Nat) (hm : 1 ≤ m) :
    (∀ j, j ≠ L → getBucket (permute sq st L m) j = getBucket st j)
    ∧ (∀ p ∈ permuteSplits L m, p.1 < L ∧ p.2 < L)
    ∧ permute sq st L m =
        setBucket st L (insertList (getBucket st L) (permuteInserts sq st L m))
    ∧ (∀ st' : Store, (∀ j, j < L → getBucket st' j = getBucket st j) →
        permuteInserts sq st' L m = permuteInserts sq st L m) := by
  refine ⟨?_, ?_, permute_eq_insertList sq st L m hm,
    fun st' h => permuteInserts_congr sq st st' L m hm h⟩
  · intro j hj
    exact getBucket_foldSplits_ne sq L _ st j hj
  · intro p hp
    obtain ⟨e, h1, h2⟩ := (mem_permuteSplits L m p.1 p.2).1 hp
    omega

/-- Witness for C9's theorem at a concrete store. -/
theorem c9_witness :
    (∀ j, j ≠ 2 → getBucket (permute (sanitize ['a', 'b'])
        (builtStore ['a', 'b'] [['a'], ['b']] []) 2 1) j =
      getBucket (builtStore ['a', 'b'] [['a'], ['b']] []) j)
    ∧ (∀ p ∈ permuteSplits 2 1, p.1 < 2 ∧ p.2 < 2)
    ∧ permute (sanitize ['a', 'b']) (builtStore ['a', 'b'] [['a'], ['b']] []) 2 1 =
        setBucket (builtStore ['a', 'b'] [['a'], ['b']] []) 2
          (insertList (getBucket (builtStore ['a', 'b'] [['a'], ['b']] []) 2)
            (permuteInserts (sanitize ['a', 'b'])
              (builtStore ['a', 'b'] [['a'], ['b']] []) 2 1))
    ∧ (∀ st' : Store, (∀ j, j < 2 → getBucket st' j =
          getBucket (builtStore ['a', 'b'] [['a'], ['b']] []) j) →
        permuteInserts (sanitize ['a', 'b']) st' 2 1 =
          permuteInserts (sanitize ['a', 'b']) (builtStore ['a', 'b'] [['a'], ['b']] []) 2 1) :=
  c9_permute_frame (sanitize ['a', 'b']) (builtStore ['a', 'b'] [['a'], ['b']] []) 2 1
    (by decide)

/-- C10: the store is built with exactly `queryLetterCount + 1` buckets, and
every bucket index touched by seeding, by the solve loop's permute calls, and
by ranking is below that bound, so no out-of-range access occurs. -/
theorem c10_indices_in_range (qL : Nat) (sq : Word) (ws : List Word) (fa : Bool) :
    (initStore qL).length = qL + 1
    ∧ (∀ i ∈ seedTouched qL sq ws, i < qL + 1)
    ∧ (∀ i ∈ solveTouched qL (solveMinLength qL fa), i < qL + 1) := by
  refine ⟨by simp [initStore], ?_, ?_⟩
  · intro i hi
    unfold seedTouched at hi
    rw [List.mem_map] at hi
    obtain ⟨w, hw, e⟩ := hi
    rw [List.mem_filter] at hw
    have h2 := hw.2
    simp only [Bool.and_eq_true, decide_eq_true_eq] at h2
    omega
  · intro i hi
    unfold solveTouched at hi
    rw [List.mem_append] at hi
    rcases hi with hi | hi
    · rw [List.mem_flatMap] at hi
      obtain ⟨Lv, hL, hi⟩ := hi
      rw [List.mem_range] at hL
      unfold permuteTouched at hi
      rw [List.mem_flatMap] at hi
      obtain ⟨p, hp, hi⟩ := hi
      obtain ⟨e, h1, h2⟩ := (mem_permuteSplits Lv _ p.1 p.2).1 hp
      simp only [List.mem_cons, List.not_mem_nil, or_false] at hi
      rcases hi with e1 | e1 | e1 <;> omega
    · rw [List.mem_singleton] at hi
      omega
